import Mathlib

/-!
# my-sh: a shallow embedding of `myshell.c`

The shell reads a line, tokenizes it (`parse_input`), and dispatches it
(`execute_command`) to a built-in, to a single forked child
(`execute_external`) or to a two-stage pipeline (`handle_piping`); a child
rewires its standard streams in `handle_redirection` before `execvp`.

Modelling conventions.

* A `char **` argument vector is a list of memory cells, `none` standing for
  the `NULL` pointer; `args[i] = NULL` is `List.set`. The cells after the first
  `NULL` are kept, because `handle_redirection` writes a `NULL` in the middle of
  the vector and keeps scanning behind it.
* `while (args[i] != NULL)` loops are index loops with an explicit iteration
  budget equal to the number of cells; a `NULL`-terminated vector never uses
  the budget up.
* System calls are recorded in a trace of `Call`s, in program order, for the
  process that runs the code. What the operating system answers is read from an
  `OS` record, so every result is a parameter of the model.
-/

namespace MyShell

/-! ## Constants -/

/-- Capacity of the argument array, `MAX_ARGS` (64 cells, the last one for `NULL`). -/
def MAX_ARGS : Nat := 64

/-- Descriptor of standard input, `STDIN_FILENO`. -/
def STDIN_FILENO : Int := 0

/-- Descriptor of standard output, `STDOUT_FILENO`. -/
def STDOUT_FILENO : Int := 1

/-! ## Argument vectors -/

/-- Memory cells of a `char **`: `none` is `NULL`. -/
abbrev Argv := List (Option String)

/-- The vector whose cells are the given tokens followed by the terminating `NULL`. -/
def mk_argv (toks : List String) : Argv := toks.map some ++ [none]

/-- Read `args[i]`. Cells that the model does not hold read as `NULL`. -/
def cell (args : Argv) (i : Nat) : Option String := args.getD i none

/-- The strings a consumer of the vector sees: the cells before the first `NULL`
(this is how `execvp` reads its `argv`). -/
def argv_list : Argv → List String
  | some a :: rest => a :: argv_list rest
  | _ => []

/-! ## The operating system -/

/-- Flags of the two `open` calls of `handle_redirection`. -/
inductive OMode
  | wronly_creat_trunc
  | rdonly
  deriving DecidableEq

/-- Answers of the operating system to the process that runs the code. -/
structure OS where
  /-- whether `malloc` in `parse_input` returns a non-null pointer -/
  malloc_ok : Bool
  /-- value returned by `chdir(path)` -/
  chdir_ret : String → Int
  /-- value returned by the `n`-th `fork()` issued by the running function -/
  fork_ret : Nat → Int
  /-- value returned by `pipe(pipefd)` -/
  pipe_ret : Int
  /-- `pipefd[0]` -/
  pipe_rd : Int
  /-- `pipefd[1]` -/
  pipe_wr : Int
  /-- value returned by the `open` that `handle_redirection` issues at scan index `i`
  for a non-null path -/
  open_ret : Nat → String → OMode → Int
  /-- whether `execvp` fails, that is, returns -/
  execvp_fails : Bool

/-- One observable action of the running process. -/
inductive Call
  | pipe (ret : Int)
  | fork (ret : Int)
  | close (fd : Int)
  | dup2 (oldfd newfd : Int)
  | openf (path : Option String) (mode : OMode) (ret : Int)
  | waitpid (pid : Int)
  | execvp (file : Option String) (argv : List String)
  | chdir (path : String) (ret : Int)
  | perror (s : String)
  | printf (s : String)
  | eprint (s : String)
  | exit_ (status : Int)
  deriving DecidableEq

/-- The call `open(path, ...)`: a `NULL` path is rejected by the system call (`EFAULT`,
result -1); for a real path the operating system decides. -/
def sys_open (os : OS) (i : Nat) (path : Option String) (mode : OMode) : Int :=
  match path with
  | none => -1
  | some p => os.open_ret i p mode

/-! ## `parse_input` (lines 76-94) -/

/-- The delimiter set `" \t\n"` passed to `strtok`. -/
def is_delim (c : Char) : Bool := c = ' ' || c = '\t' || c = '\n'

/-- First phase of `strtok`: skip leading delimiters. The terminating NUL is not
a delimiter, so the skip stops on it. -/
def skip_delims : List Char → List Char
  | [] => []
  | c :: cs => if is_delim c then skip_delims cs else c :: cs

/-- Second phase of `strtok`: the token runs up to the next delimiter or the
NUL. Result: the token and the saved pointer for the next call (behind the
delimiter that was overwritten, or on the NUL). -/
def scan_token : List Char → List Char × List Char
  | [] => ([], [])
  | c :: cs =>
    if c = '\x00' then ([], c :: cs)
    else if is_delim c then ([], cs)
    else (c :: (scan_token cs).1, (scan_token cs).2)

/-- The call `strtok(s, " \t\n")` on the characters at the scan pointer (a list that
ends, or holds a NUL, where the C string ends): `none` is `NULL`, otherwise the
token and the saved pointer. -/
def strtok (s : List Char) : Option (List Char × List Char) :=
  match skip_delims s with
  | [] => none
  | c :: cs => if c = '\x00' then none else some (scan_token (c :: cs))

/-- The loop `while (token != NULL && i < MAX_ARGS - 1)`: the first argument is
`MAX_ARGS - 1 - i`, the second the current `token` with the saved pointer.
Result: the tokens stored in `args[i..]`. -/
def parse_loop : Nat → Option (List Char × List Char) → List String
  | 0, _ => []
  | _ + 1, none => []
  | n + 1, some (tok, rest) => String.mk tok :: parse_loop n (strtok rest)

/-- How `parse_input` ends: it exits the shell when `malloc` fails, and returns
the vector otherwise. -/
inductive ParseResult
  | exited (msg : String) (status : Int)
  | returned (args : Argv)
  deriving DecidableEq

/-- The function `char **parse_input(char *input)`: `malloc`, the `strtok` loop, and
`args[i] = NULL`. -/
def parse_input (malloc_ok : Bool) (input : String) : ParseResult :=
  if malloc_ok = false then ParseResult.exited "myshell: Memory allocation failed\n" 1
  else ParseResult.returned (mk_argv (parse_loop (MAX_ARGS - 1) (strtok input.toList)))

/-! ### The tokenizer as the specification words it -/

/-- Whitespace of the specification: space and tab. -/
def is_blank (c : Char) : Bool := c = ' ' || c = '\t'

/-- The maximal runs of characters other than space and tab, in order: split the
characters at every blank and keep the non-empty pieces. -/
def runs (l : List Char) : List (List Char) :=
  (l.splitOnP is_blank).filter (fun r => !r.isEmpty)

/-- The tokens of a line as the specification defines them: its maximal runs of
non-blank characters, in line order. -/
def maximal_runs (line : String) : List String := (runs line.toList).map String.mk

/-! ## `is_background` (lines 340-348) and the stripping in `execute_command` -/

/-- The loop `while (args[i] != NULL) i++;` started at `i`. -/
def count_loop (args : Argv) : Nat → Nat → Nat
  | 0, i => i
  | fuel + 1, i =>
    match cell args i with
    | none => i
    | some _ => count_loop args fuel (i + 1)

/-- Index of the first `NULL` cell. -/
def arg_count (args : Argv) : Nat := count_loop args args.length 0

/-- The function `int is_background(char **args)`. -/
def is_background (args : Argv) : Int :=
  let i := arg_count args
  if 0 < i ∧ cell args (i - 1) = some "&" then 1 else 0

/-- Lines 168-176 of `execute_command`: the background flag and the vector after
`args[i - 1] = NULL`. -/
def strip_background (args : Argv) : Int × Argv :=
  let background := is_background args
  if background ≠ 0 then (background, args.set (arg_count args - 1) none)
  else (background, args)

/-! ## `has_pipe` (lines 208-218) -/

/-- Loop of `has_pipe`. -/
def has_pipe_loop (args : Argv) : Nat → Nat → Int
  | 0, _ => 0
  | fuel + 1, i =>
    match cell args i with
    | none => 0
    | some a => if a = "|" then 1 else has_pipe_loop args fuel (i + 1)

/-- The function `int has_pipe(char **args)`. -/
def has_pipe (args : Argv) : Int := has_pipe_loop args args.length 0

/-! ## `handle_redirection` (lines 304-337) -/

/-- The `while (args[i] != NULL)` loop of `handle_redirection` at index `i`:
the trace of the calls made, and the vector when the function returns (`none`
when the process has called `exit(1)`). -/
def handle_redirection_loop (os : OS) : Nat → Nat → Argv → List Call × Option Argv
  | 0, _, args => ([], some args)
  | fuel + 1, i, args =>
    match cell args i with
    | none => ([], some args)
    | some a =>
      if a = ">" then
        let fd := sys_open os i (cell args (i + 1)) OMode.wronly_creat_trunc
        if fd = -1 then
          ([Call.openf (cell args (i + 1)) OMode.wronly_creat_trunc fd,
            Call.perror "open", Call.exit_ 1], none)
        else
          let r := handle_redirection_loop os fuel (i + 1) (args.set i none)
          ([Call.openf (cell args (i + 1)) OMode.wronly_creat_trunc fd,
            Call.dup2 fd STDOUT_FILENO, Call.close fd] ++ r.1, r.2)
      else if a = "<" then
        let fd := sys_open os i (cell args (i + 1)) OMode.rdonly
        if fd = -1 then
          ([Call.openf (cell args (i + 1)) OMode.rdonly fd,
            Call.perror "open", Call.exit_ 1], none)
        else
          let r := handle_redirection_loop os fuel (i + 1) (args.set i none)
          ([Call.openf (cell args (i + 1)) OMode.rdonly fd,
            Call.dup2 fd STDIN_FILENO, Call.close fd] ++ r.1, r.2)
      else handle_redirection_loop os fuel (i + 1) args

/-- The function `void handle_redirection(char **args)`. -/
def handle_redirection (os : OS) (args : Argv) : List Call × Option Argv :=
  handle_redirection_loop os args.length 0 args

/-- The body every forked child runs (lines 138-142, 264-267, 277-280):
`handle_redirection(args); execvp(args[0], args); perror("execvp"); exit(1);` -/
def child_exec (os : OS) (args : Argv) : List Call :=
  match handle_redirection os args with
  | (tr, none) => tr
  | (tr, some args1) =>
    tr ++ Call.execvp (cell args1 0) (argv_list args1) ::
      (if os.execvp_fails then [Call.perror "execvp", Call.exit_ 1] else [])

/-! ## `execute_external` (lines 132-160) -/

/-- The function `void execute_external(char **args, int background)`: the trace of
the process that runs it, the parent or the forked child. -/
def execute_external (os : OS) (args : Argv) (background : Int) : List Call :=
  let pid := os.fork_ret 0
  if pid = 0 then Call.fork pid :: child_exec os args
  else if 0 < pid then
    if background = 0 then [Call.fork pid, Call.waitpid pid]
    else [Call.fork pid,
      Call.printf ("[Background process started with PID " ++ toString pid ++ "]\n")]
  else [Call.fork pid, Call.perror "fork"]

/-! ## `handle_piping` (lines 221-288) -/

/-- The search loop of `handle_piping` (lines 223-233): the value of `pipe_pos`. -/
def find_pipe_loop (args : Argv) : Nat → Nat → Int
  | 0, _ => -1
  | fuel + 1, i =>
    match cell args i with
    | none => -1
    | some a => if a = "|" then (i : Int) else find_pipe_loop args fuel (i + 1)

/-- Lines 240-242: `for (i = 0; i < pipe_pos; i++) left[i] = args[i]; left[i] = NULL;` -/
def copy_left (args : Argv) (pipe_pos : Nat) : Argv :=
  (List.range pipe_pos).map (fun i => cell args i) ++ [none]

/-- Lines 245-247: `while (args[i] != NULL) right[j++] = args[i++]; right[j] = NULL;` -/
def copy_right_loop (args : Argv) : Nat → Nat → Argv
  | 0, _ => [none]
  | fuel + 1, i =>
    match cell args i with
    | none => [none]
    | some a => some a :: copy_right_loop args fuel (i + 1)

/-- Lines 223-247 of `handle_piping`: `none` when `pipe_pos == -1` (the function
returns), otherwise the arrays `left` and `right`. -/
def handle_piping_split (args : Argv) : Option (Argv × Argv) :=
  let pipe_pos := find_pipe_loop args args.length 0
  if pipe_pos = -1 then none
  else some (copy_left args pipe_pos.toNat,
    copy_right_loop args args.length (pipe_pos.toNat + 1))

/-- The function `void handle_piping(char **args)`: the trace of the process that runs it,
which is the parent, or the child in which a `fork` returned 0. -/
def handle_piping (os : OS) (args : Argv) : List Call :=
  match handle_piping_split args with
  | none => []
  | some (left, right) =>
    if os.pipe_ret = -1 then [Call.pipe os.pipe_ret, Call.perror "pipe"]
    else
      let pid1 := os.fork_ret 0
      if pid1 = 0 then
        [Call.pipe os.pipe_ret, Call.fork pid1, Call.close os.pipe_rd,
          Call.dup2 os.pipe_wr STDOUT_FILENO, Call.close os.pipe_wr] ++ child_exec os left
      else
        let pid2 := os.fork_ret 1
        if pid2 = 0 then
          [Call.pipe os.pipe_ret, Call.fork pid1, Call.fork pid2, Call.close os.pipe_wr,
            Call.dup2 os.pipe_rd STDIN_FILENO, Call.close os.pipe_rd] ++ child_exec os right
        else
          [Call.pipe os.pipe_ret, Call.fork pid1, Call.fork pid2,
            Call.close os.pipe_rd, Call.close os.pipe_wr,
            Call.waitpid pid1, Call.waitpid pid2]

/-! ## `execute_builtin`, `execute_command`, `main` -/

/-- The function `int execute_builtin(char **args)`: the trace and the returned value (`none`
when the shell has called `exit(0)`). `main` calls the dispatcher only with
`args[0] != NULL`; a `NULL` first cell is read here as no built-in. -/
def execute_builtin (os : OS) (args : Argv) : List Call × Option Int :=
  match cell args 0 with
  | none => ([], some 0)
  | some a =>
    if a = "cd" then
      match cell args 1 with
      | none => ([Call.eprint "myshell: cd: expected argument\n"], some 1)
      | some d =>
        if os.chdir_ret d ≠ 0 then ([Call.chdir d (os.chdir_ret d), Call.perror "cd"], some 1)
        else ([Call.chdir d (os.chdir_ret d)], some 1)
    else if a = "exit" then ([Call.exit_ 0], none)
    else if a = "help" then
      ([Call.printf "Built-in commands:\n",
        Call.printf "  cd <dir>    - Change directory\n",
        Call.printf "  exit        - Exit the shell\n",
        Call.printf "  help        - Display this help\n",
        Call.printf "External commands are executed using fork and execvp.\n",
        Call.printf "Supports piping (|), redirection (>, <), and background (&).\n"], some 1)
    else ([], some 0)

/-- The function `void execute_command(char **args)`. -/
def execute_command (os : OS) (args : Argv) : List Call :=
  match execute_builtin os args with
  | (tr, none) => tr
  | (tr, some r) =>
    if r ≠ 0 then tr
    else
      let s := strip_background args
      if has_pipe s.2 ≠ 0 then tr ++ handle_piping os s.2
      else tr ++ execute_external os s.2 s.1

/-- One round of the loop of `main` after the line was read (lines 55-59; the
history call is outside the model): tokenize, and dispatch when `args[0] != NULL`. -/
def main_iteration (os : OS) (input : String) : List Call :=
  match parse_input os.malloc_ok input with
  | ParseResult.exited msg status => [Call.eprint msg, Call.exit_ status]
  | ParseResult.returned args =>
    if cell args 0 ≠ none then execute_command os args else []

/-! ## Sample operating systems and inputs -/

/-- Every call succeeds; the running process is the parent of children 101 and 102. -/
def os_parent : OS := ⟨true, fun _ => 0, fun n => 101 + n, 0, 3, 4, fun _ _ _ => 5, false⟩

/-- Every call succeeds; the running process is the child of the first `fork`. -/
def os_child : OS := ⟨true, fun _ => 0, fun _ => 0, 0, 3, 4, fun _ _ _ => 5, false⟩

/-- The first `fork` fails with -1, the second one succeeds with child 102. -/
def os_fork1_fails : OS :=
  ⟨true, fun _ => 0, fun n => if n = 0 then -1 else 102, 0, 3, 4, fun _ _ _ => 5, false⟩

/-- The first `fork` succeeds with child 101, the second one fails with -1. -/
def os_fork2_fails : OS :=
  ⟨true, fun _ => 0, fun n => if n = 0 then 101 else -1, 0, 3, 4, fun _ _ _ => 5, false⟩

/-- A line of 64 tokens. -/
def line64 : String :=
  "1 2 3 4 5 6 7 8 9 10 11 12 13 14 15 16 17 18 19 20 21 22 23 24 25 26 27 28 29 30 31 32 " ++
  "33 34 35 36 37 38 39 40 41 42 43 44 45 46 47 48 49 50 51 52 53 54 55 56 57 58 59 60 61 " ++
  "62 63 64"

/-! ## The redirection scan over the tokens still to visit

`handle_redirection` reads `args[i]` and `args[i + 1]` and writes `args[i]`
only, so its loop is a left-to-right pass over the tokens. `redirect_scan` is
that pass written on the list of tokens from index `i` on; `redirect_scan_refines`
below proves that the index loop computes it. -/

/-- A token that `handle_redirection` treats as an operator. -/
def is_redir_op (t : String) : Bool := decide (t = ">") || decide (t = "<")

/-- The flags `handle_redirection` opens the path of operator `t` with. -/
def redir_mode (t : String) : OMode :=
  if t = ">" then OMode.wronly_creat_trunc else OMode.rdonly

/-- The stream operator `t` rebinds. -/
def redir_target (t : String) : Int :=
  if t = ">" then STDOUT_FILENO else STDIN_FILENO

/-- The cell `handle_redirection` leaves where token `t` stood. -/
def strip_op (t : String) : Option String := if is_redir_op t then none else some t

/-- The pass of `handle_redirection` over the tokens from index `i` on: the trace,
and the cells left behind when no `open` fails. -/
def redirect_scan (os : OS) : Nat → List String → List Call × Option Argv
  | _, [] => ([], some [])
  | i, t :: rest =>
    if is_redir_op t then
      if sys_open os i rest.head? (redir_mode t) = -1 then
        ([Call.openf rest.head? (redir_mode t) (sys_open os i rest.head? (redir_mode t)),
          Call.perror "open", Call.exit_ 1], none)
      else
        ([Call.openf rest.head? (redir_mode t) (sys_open os i rest.head? (redir_mode t)),
          Call.dup2 (sys_open os i rest.head? (redir_mode t)) (redir_target t),
          Call.close (sys_open os i rest.head? (redir_mode t))] ++
            (redirect_scan os (i + 1) rest).1,
          (redirect_scan os (i + 1) rest).2.map (fun cells => none :: cells))
    else
      ((redirect_scan os (i + 1) rest).1,
        (redirect_scan os (i + 1) rest).2.map (fun cells => some t :: cells))

/-! ## Reading cells of a NULL-terminated vector -/

theorem cell_tokens_lt (toks : List String) (rest : Argv) (i : Nat) (h : i < toks.length) :
    cell (toks.map some ++ rest) i = some toks[i] := by
  unfold cell
  rw [List.getD_eq_getElem?_getD, List.getElem?_append_left (by simpa using h)]
  simp [h]

theorem cell_tokens_len (toks : List String) (x : Option String) (rest : Argv) :
    cell (toks.map some ++ x :: rest) toks.length = x := by
  unfold cell
  rw [List.getD_eq_getElem?_getD, List.getElem?_append_right (by simp)]
  simp

theorem count_loop_tokens (toks : List String) (tail : Argv) :
    ∀ fuel i, i ≤ toks.length → toks.length + 1 ≤ fuel + i →
      count_loop (toks.map some ++ none :: tail) fuel i = toks.length := by
  intro fuel
  induction fuel with
  | zero => intro i h1 h2; omega
  | succ fuel ih =>
    intro i h1 h2
    rcases Nat.lt_or_ge i toks.length with hlt | hge
    · simp only [count_loop, cell_tokens_lt toks _ i hlt]
      exact ih (i + 1) hlt (by omega)
    · have hi : i = toks.length := by omega
      subst hi
      simp only [count_loop, cell_tokens_len]

theorem arg_count_tokens (toks : List String) (tail : Argv) :
    arg_count (toks.map some ++ none :: tail) = toks.length := by
  unfold arg_count
  exact count_loop_tokens toks tail _ 0 (Nat.zero_le _) (by simp)

theorem set_tokens_len (toks : List String) (x y : Option String) (rest : Argv) :
    (toks.map some ++ x :: rest).set toks.length y = toks.map some ++ y :: rest := by
  induction toks with
  | nil => rfl
  | cons t ts ih => simp [ih]

theorem argv_list_tokens (toks : List String) (tail : Argv) :
    argv_list (toks.map some ++ none :: tail) = toks := by
  induction toks with
  | nil => rfl
  | cons t ts ih => simp [argv_list, ih]

theorem cell_split_left (l r : List String) (x : String) (rest : Argv) (i : Nat)
    (h : i < l.length) : cell ((l ++ x :: r).map some ++ rest) i = some l[i] := by
  rw [cell_tokens_lt _ _ i (by simp; omega), List.getElem_append_left h]

theorem cell_split_mid (l r : List String) (x : String) (rest : Argv) :
    cell ((l ++ x :: r).map some ++ rest) l.length = some x := by
  rw [cell_tokens_lt _ _ l.length (by simp), List.getElem_append_right (Nat.le_refl _)]
  simp

theorem cell_shift (pre rest : Argv) (j : Nat) :
    cell (pre ++ rest) (pre.length + j) = cell rest j := by
  unfold cell
  rw [List.getD_eq_getElem?_getD, List.getD_eq_getElem?_getD,
    List.getElem?_append_right (by omega)]
  simp

theorem getLast?_eq_getElem_pred (toks : List String) (h : toks.length - 1 < toks.length) :
    toks.getLast? = some toks[toks.length - 1] := by
  rw [List.getLast?_eq_getElem?, List.getElem?_eq_getElem]

/-! ## Claims on `is_background` and the background stripping -/

theorem is_background_core (W : List String) (tl : Argv) :
    is_background (W.map some ++ none :: tl) =
      if W ≠ [] ∧ W.getLast? = some "&" then 1 else 0 := by
  unfold is_background
  simp only [arg_count_tokens]
  rcases Nat.eq_zero_or_pos W.length with h0 | hpos
  · have : W = [] := List.length_eq_zero.mp h0
    subst this
    simp
  · have hne : W ≠ [] := by
      intro h; rw [h] at hpos; simp at hpos
    have hlt : W.length - 1 < W.length := by omega
    rw [cell_tokens_lt W _ (W.length - 1) hlt, getLast?_eq_getElem_pred W hlt]
    simp [hpos, hne]

/-- C8: for every argument vector `V` (the tokens `V`, the terminating `NULL`, and
whatever cells follow), `is_background` is true (non-zero, in fact 1) if and
only if `V` is non-empty and its last token is `"&"`; it is 0 on the empty
vector, and 0 on a vector whose `"&"` is not the final token. -/
theorem is_background_iff (V : List String) (tail : Argv) :
    (is_background (V.map some ++ none :: tail) ≠ 0 ↔ V ≠ [] ∧ V.getLast? = some "&") ∧
    (is_background (V.map some ++ none :: tail) = 1 ∨
      is_background (V.map some ++ none :: tail) = 0) ∧
    is_background (mk_argv []) = 0 ∧
    (∀ (pre mid : List String) (last : String), last ≠ "&" →
      is_background (mk_argv (pre ++ "&" :: mid ++ [last])) = 0) := by
  have key := is_background_core
  refine ⟨?_, ?_, ?_, ?_⟩
  · rw [key]
    by_cases h : V ≠ [] ∧ V.getLast? = some "&"
    · simp [h]
    · simp only [h, if_false, ne_eq, not_true_eq_false]
  · rw [key]
    by_cases h : V ≠ [] ∧ V.getLast? = some "&"
    · left; simp [h]
    · right; simp only [h, if_false]
  · decide
  · intro pre mid last hlast
    unfold mk_argv
    rw [key]
    have hre : pre ++ "&" :: mid ++ [last] = (pre ++ "&" :: mid) ++ [last] := by simp
    have : (pre ++ "&" :: mid ++ [last]).getLast? = some last := by
      rw [hre, List.getLast?_concat]
    rw [this]
    simp [hlast]

/-- C9: round trip of the background marker. For every non-empty vector `V`,
the stripping of `execute_command` applied to `V` with `"&"` appended sets the
background flag (1) and leaves a vector whose arguments are exactly `V`: the
cell of the marker now holds `NULL`, in front of the old terminator, and the
program name `args[0]` is still there. -/
theorem strip_background_append (V : List String) (hV : V ≠ []) :
    (strip_background (mk_argv (V ++ ["&"]))).1 = 1 ∧
    argv_list (strip_background (mk_argv (V ++ ["&"]))).2 = V ∧
    (strip_background (mk_argv (V ++ ["&"]))).2 = V.map some ++ [none, none] ∧
    is_background (mk_argv (V ++ ["&"])) = 1 ∧
    cell (strip_background (mk_argv (V ++ ["&"]))).2 0 ≠ none := by
  have hne : V ++ ["&"] ≠ [] := by simp
  have hbg : is_background (mk_argv (V ++ ["&"])) = 1 := by
    rcases (is_background_core (V ++ ["&"]) []) with h
    rw [mk_argv, h]
    simp
  have hcnt : arg_count (mk_argv (V ++ ["&"])) = V.length + 1 := by
    rw [mk_argv, arg_count_tokens]; simp
  have hset : (mk_argv (V ++ ["&"])).set V.length none = V.map some ++ [none, none] := by
    have := set_tokens_len V (some "&") none [none]
    rw [mk_argv, List.map_append, List.append_assoc]
    exact this
  have hstrip : strip_background (mk_argv (V ++ ["&"])) = (1, V.map some ++ [none, none]) := by
    unfold strip_background
    simp only [hbg, hcnt, Nat.add_sub_cancel, hset]
    rfl
  refine ⟨by rw [hstrip], ?_, by rw [hstrip], hbg, ?_⟩
  · rw [hstrip]
    exact argv_list_tokens V [none]
  · rw [hstrip]
    cases V with
    | nil => exact absurd rfl hV
    | cons v vs => simp [cell]

/-- C9 at `V = ["sleep", "5"]`. -/
theorem strip_background_append_witness :
    ["sleep", "5"] ≠ [] ∧
    (strip_background (mk_argv (["sleep", "5"] ++ ["&"]))).1 = 1 ∧
    argv_list (strip_background (mk_argv (["sleep", "5"] ++ ["&"]))).2 = ["sleep", "5"] ∧
    (strip_background (mk_argv (["sleep", "5"] ++ ["&"]))).2 =
      (["sleep", "5"] : List String).map some ++ [none, none] ∧
    is_background (mk_argv (["sleep", "5"] ++ ["&"])) = 1 ∧
    cell (strip_background (mk_argv (["sleep", "5"] ++ ["&"]))).2 0 ≠ none :=
  ⟨by decide, strip_background_append ["sleep", "5"] (by decide)⟩

/-! ## Claims on the pipeline split -/

theorem find_pipe_loop_first (l r : List String) (tail : Argv) (hl : "|" ∉ l) :
    ∀ fuel i, i ≤ l.length → l.length + 1 ≤ fuel + i →
      find_pipe_loop ((l ++ "|" :: r).map some ++ none :: tail) fuel i = (l.length : Int) := by
  intro fuel
  induction fuel with
  | zero => intro i h1 h2; omega
  | succ fuel ih =>
    intro i h1 h2
    rcases Nat.lt_or_ge i l.length with hlt | hge
    · have hne : l[i] ≠ "|" := fun h => hl (h ▸ List.getElem_mem hlt)
      simp only [find_pipe_loop, cell_split_left l r "|" _ i hlt, hne, if_false]
      exact ih (i + 1) hlt (by omega)
    · have hi : i = l.length := by omega
      subst hi
      simp only [find_pipe_loop, cell_split_mid, if_true]

theorem has_pipe_loop_first (l r : List String) (tail : Argv) (hl : "|" ∉ l) :
    ∀ fuel i, i ≤ l.length → l.length + 1 ≤ fuel + i →
      has_pipe_loop ((l ++ "|" :: r).map some ++ none :: tail) fuel i = 1 := by
  intro fuel
  induction fuel with
  | zero => intro i h1 h2; omega
  | succ fuel ih =>
    intro i h1 h2
    rcases Nat.lt_or_ge i l.length with hlt | hge
    · have hne : l[i] ≠ "|" := fun h => hl (h ▸ List.getElem_mem hlt)
      simp only [has_pipe_loop, cell_split_left l r "|" _ i hlt, hne, if_false]
      exact ih (i + 1) hlt (by omega)
    · have hi : i = l.length := by omega
      subst hi
      simp only [has_pipe_loop, cell_split_mid, if_true]

theorem copy_left_split (l r : List String) (x : String) (rest : Argv) :
    copy_left ((l ++ x :: r).map some ++ rest) l.length = mk_argv l := by
  unfold copy_left mk_argv
  congr 1
  apply List.ext_getElem
  · simp
  · intro i h1 h2
    have hi : i < l.length := by simpa using h1
    rw [List.getElem_map, List.getElem_map, List.getElem_range, cell_split_left l r x rest i hi]

theorem copy_right_loop_shift (pre : Argv) (r : List String) (tail : Argv) :
    ∀ fuel j, j ≤ r.length → r.length + 1 ≤ fuel + j →
      copy_right_loop (pre ++ (r.map some ++ none :: tail)) fuel (pre.length + j) =
        mk_argv (r.drop j) := by
  intro fuel
  induction fuel with
  | zero => intro j h1 h2; omega
  | succ fuel ih =>
    intro j h1 h2
    rcases Nat.lt_or_ge j r.length with hlt | hge
    · simp only [copy_right_loop, cell_shift, cell_tokens_lt r _ j hlt]
      rw [Nat.add_assoc, ih (j + 1) hlt (by omega), List.drop_eq_getElem_cons hlt]
      rfl
    · have hj : j = r.length := by omega
      subst hj
      simp only [copy_right_loop, cell_shift, cell_tokens_len]
      simp [mk_argv]

theorem handle_piping_split_at (l r : List String) (tail : Argv) (hl : "|" ∉ l) :
    handle_piping_split ((l ++ "|" :: r).map some ++ none :: tail) =
      some (mk_argv l, mk_argv r) := by
  have hpos := find_pipe_loop_first l r tail hl
    ((l ++ "|" :: r).map some ++ none :: tail).length 0 (Nat.zero_le _) (by simp)
  have hcells : (l ++ "|" :: r).map some ++ none :: tail =
      (l.map some ++ [some "|"]) ++ (r.map some ++ none :: tail) := by simp
  have hright := copy_right_loop_shift (l.map some ++ [some "|"]) r tail
    ((l ++ "|" :: r).map some ++ none :: tail).length 0 (Nat.zero_le _) (by simp; omega)
  rw [← hcells] at hright
  have hlen : (l.map some ++ [some "|"]).length + 0 = l.length + 1 := by simp
  rw [hlen] at hright
  unfold handle_piping_split
  simp only [hpos, Int.toNat_ofNat, hright, copy_left_split, List.drop_zero]
  have : ((l.length : Int) = -1) = False := by
    apply eq_false; omega
  simp only [this, if_false]

theorem first_pipe_split (toks : List String) (h : "|" ∈ toks) :
    toks = toks.takeWhile (fun t => !decide (t = "|")) ++
        "|" :: (toks.dropWhile (fun t => !decide (t = "|"))).tail ∧
      "|" ∉ toks.takeWhile (fun t => !decide (t = "|")) := by
  induction toks with
  | nil => simp at h
  | cons t ts ih =>
    by_cases ht : t = "|"
    · subst ht; simp
    · have hmem : "|" ∈ ts := by
        rcases List.mem_cons.mp h with h1 | h1
        · exact absurd h1.symm ht
        · exact h1
      have := ih hmem
      have hne : ¬ "|" = t := fun h => ht h.symm
      simp only [List.takeWhile_cons, List.dropWhile_cons, ht, decide_False, Bool.not_false,
        if_true, List.cons_append, List.mem_cons, hne, false_or]
      exact ⟨by rw [← this.1], this.2⟩

/-- C2: for every argument vector that holds a `"|"` token, `has_pipe` answers 1
and `handle_piping` splits at the first such token. `left` is the tokens in
front of the first `"|"` and holds no `"|"`; `right` is all the tokens behind
it, in order, so `left ++ ["|"] ++ right` is the vector and every later `"|"`
is an ordinary element of `right`. -/
theorem handle_piping_split_first (toks : List String) (tail : Argv) (h : "|" ∈ toks) :
    has_pipe (toks.map some ++ none :: tail) = 1 ∧
    handle_piping_split (toks.map some ++ none :: tail) =
      some (mk_argv (toks.takeWhile (fun t => !decide (t = "|"))),
        mk_argv (toks.dropWhile (fun t => !decide (t = "|"))).tail) ∧
    "|" ∉ toks.takeWhile (fun t => !decide (t = "|")) ∧
    toks.takeWhile (fun t => !decide (t = "|")) ++ ["|"] ++
      (toks.dropWhile (fun t => !decide (t = "|"))).tail = toks ∧
    ((toks.dropWhile (fun t => !decide (t = "|"))).tail).count "|" + 1 = toks.count "|" := by
  obtain ⟨heq, hnot⟩ := first_pipe_split toks h
  have hsplit := handle_piping_split_at _ (toks.dropWhile (fun t => !decide (t = "|"))).tail
    tail hnot
  have hhas := has_pipe_loop_first _ (toks.dropWhile (fun t => !decide (t = "|"))).tail
    tail hnot (toks.map some ++ none :: tail).length 0 (Nat.zero_le _)
    (by
      have : (toks.takeWhile (fun t => !decide (t = "|"))).length ≤ toks.length :=
        (List.takeWhile_sublist _).length_le
      simp; omega)
  rw [← heq] at hsplit hhas
  refine ⟨hhas, hsplit, hnot, ?_, ?_⟩
  · rw [List.append_assoc]; exact heq.symm
  · conv_rhs => rw [heq]
    rw [List.count_append, List.count_cons_self, List.count_eq_zero_of_not_mem hnot]
    omega

/-- C2 at `a | b | c`: the second `"|"` stays in `right`. -/
theorem handle_piping_split_first_witness :
    "|" ∈ ["a", "|", "b", "|", "c"] ∧
    handle_piping_split (mk_argv ["a", "|", "b", "|", "c"]) =
      some (mk_argv ["a"], mk_argv ["b", "|", "c"]) :=
  ⟨by decide, (handle_piping_split_first ["a", "|", "b", "|", "c"] [] (by decide)).2.1⟩

/-! ## `handle_redirection` computes `redirect_scan` -/

theorem cell_next (pre : Argv) (t : String) (rest : List String) (tail : Argv) :
    cell (pre ++ (some t :: (rest.map some ++ none :: tail))) (pre.length + 1) = rest.head? := by
  rw [cell_shift]
  cases rest <;> rfl

theorem cell_here (pre : Argv) (x : Option String) (rest : Argv) :
    cell (pre ++ x :: rest) pre.length = x := by
  have := cell_shift pre (x :: rest) 0
  simpa [cell] using this

theorem set_here (pre : Argv) (x y : Option String) (rest : Argv) :
    (pre ++ x :: rest).set pre.length y = pre ++ [y] ++ rest := by
  induction pre with
  | nil => rfl
  | cons p ps ih => simp [ih]

theorem redirect_scan_refines (os : OS) (tail : Argv) (toks : List String) :
    ∀ (fuel : Nat) (pre : Argv), toks.length + 1 ≤ fuel →
      handle_redirection_loop os fuel pre.length (pre ++ (toks.map some ++ none :: tail)) =
        ((redirect_scan os pre.length toks).1,
          (redirect_scan os pre.length toks).2.map
            (fun cells => pre ++ (cells ++ none :: tail))) := by
  induction toks with
  | nil =>
    intro fuel pre hfuel
    obtain ⟨f, rfl⟩ : ∃ f, fuel = f + 1 := ⟨fuel - 1, by omega⟩
    simp only [handle_redirection_loop, List.map_nil, List.nil_append, cell_here, redirect_scan,
      Option.map_some']
  | cons t rest ih =>
    intro fuel pre hfuel
    obtain ⟨f, rfl⟩ : ∃ f, fuel = f + 1 := ⟨fuel - 1, by omega⟩
    have hf : rest.length + 1 ≤ f := by simp at hfuel; omega
    have hrec := ih f (pre ++ [none]) hf
    have hrec2 := ih f (pre ++ [some t]) hf
    simp only [List.length_append, List.length_singleton] at hrec hrec2
    simp only [handle_redirection_loop, List.map_cons, List.cons_append, cell_here, cell_next,
      set_here, redirect_scan]
    by_cases hgt : t = ">"
    · subst hgt
      have e1 : is_redir_op ">" = true := by decide
      have e2 : redir_mode ">" = OMode.wronly_creat_trunc := by decide
      have e3 : redir_target ">" = STDOUT_FILENO := by decide
      simp only [if_true, e1, e2, e3]
      by_cases hfd : sys_open os pre.length rest.head? OMode.wronly_creat_trunc = -1
      · simp only [hfd, if_true, Option.map_none']
      · simp only [hfd, if_false]
        rw [hrec]
        simp [Function.comp_def]
    · by_cases hlt : t = "<"
      · subst hlt
        have e1 : is_redir_op "<" = true := by decide
        have e2 : redir_mode "<" = OMode.rdonly := by decide
        have e3 : redir_target "<" = STDIN_FILENO := by decide
        simp only [hgt, if_false, if_true, e1, e2, e3]
        by_cases hfd : sys_open os pre.length rest.head? OMode.rdonly = -1
        · simp only [hfd, if_true, Option.map_none']
        · simp only [hfd, if_false]
          rw [hrec]
          simp [Function.comp_def]
      · have e1 : is_redir_op t = false := by simp [is_redir_op, hgt, hlt]
        have hcells : pre ++ some t :: (rest.map some ++ none :: tail) =
            (pre ++ [some t]) ++ (rest.map some ++ none :: tail) := by simp
        simp only [hgt, hlt, if_false, e1, hcells, Bool.false_eq_true]
        rw [hrec2]
        simp [Function.comp_def]

theorem handle_redirection_eq_scan (os : OS) (toks : List String) (tail : Argv) :
    handle_redirection os (toks.map some ++ none :: tail) =
      ((redirect_scan os 0 toks).1,
        (redirect_scan os 0 toks).2.map (fun cells => cells ++ none :: tail)) := by
  have := redirect_scan_refines os tail toks (toks.map some ++ none :: tail).length []
    (by simp)
  simpa [handle_redirection] using this

/-! ## Properties of the redirection scan -/

theorem next_head (u : String) (rest : List String) : (u :: rest)[0 + 1]? = rest.head? := by
  cases rest <;> simp

theorem redirect_scan_cells (os : OS) (toks : List String) :
    ∀ (i : Nat) (cells : Argv), (redirect_scan os i toks).2 = some cells →
      cells = toks.map strip_op := by
  induction toks with
  | nil => intro i cells h; simpa [redirect_scan] using h.symm
  | cons t rest ih =>
    intro i cells h
    by_cases hop : is_redir_op t = true
    · by_cases hfd : sys_open os i rest.head? (redir_mode t) = -1
      · simp [redirect_scan, hop, hfd] at h
      · simp only [redirect_scan, hop, hfd, if_true, if_false, Option.map_eq_some'] at h
        obtain ⟨c, hc, rfl⟩ := h
        simp [strip_op, hop, ih (i + 1) c hc]
    · simp only [redirect_scan, hop, Bool.false_eq_true, if_false, Option.map_eq_some'] at h
      obtain ⟨c, hc, rfl⟩ := h
      simp [strip_op, hop, ih (i + 1) c hc]

theorem argv_list_strip_op (toks : List String) (tail : Argv) :
    argv_list (toks.map strip_op ++ none :: tail) =
      toks.takeWhile (fun t => !is_redir_op t) := by
  induction toks with
  | nil => rfl
  | cons t rest ih =>
    by_cases hop : is_redir_op t = true
    · simp [strip_op, hop, argv_list]
    · simp [strip_op, hop, argv_list, ih]

theorem cell_zero_strip_op (toks : List String) (tail : Argv) :
    cell (toks.map strip_op ++ none :: tail) 0 =
      (toks.takeWhile (fun t => !is_redir_op t)).head? := by
  cases toks with
  | nil => rfl
  | cons t rest =>
    by_cases hop : is_redir_op t = true
    · simp [strip_op, hop, cell]
    · simp [strip_op, hop, cell]

theorem redirect_scan_no_execvp (os : OS) (toks : List String) :
    ∀ (i : Nat) (file : Option String) (argv : List String),
      Call.execvp file argv ∉ (redirect_scan os i toks).1 := by
  induction toks with
  | nil => intro i file argv; simp [redirect_scan]
  | cons t rest ih =>
    intro i file argv
    by_cases hop : is_redir_op t = true
    · by_cases hfd : sys_open os i rest.head? (redir_mode t) = -1
      · simp [redirect_scan, hop, hfd]
      · simp [redirect_scan, hop, hfd, ih (i + 1) file argv]
    · simp [redirect_scan, hop, ih (i + 1) file argv]

theorem redirect_scan_applies (os : OS) (toks : List String) :
    ∀ (i : Nat) (cells : Argv), (redirect_scan os i toks).2 = some cells →
      ∀ (k : Nat) (t : String), toks[k]? = some t → is_redir_op t = true →
        sys_open os (i + k) toks[k + 1]? (redir_mode t) ≠ -1 ∧
        Call.openf toks[k + 1]? (redir_mode t)
          (sys_open os (i + k) toks[k + 1]? (redir_mode t)) ∈ (redirect_scan os i toks).1 ∧
        Call.dup2 (sys_open os (i + k) toks[k + 1]? (redir_mode t)) (redir_target t) ∈
          (redirect_scan os i toks).1 ∧
        Call.close (sys_open os (i + k) toks[k + 1]? (redir_mode t)) ∈
          (redirect_scan os i toks).1 := by
  induction toks with
  | nil => intro i cells _ k t hk; simp at hk
  | cons u rest ih =>
    intro i cells h k t hk hop
    have hrest : ∃ c, (redirect_scan os (i + 1) rest).2 = some c := by
      by_cases hu : is_redir_op u = true
      · by_cases hfd : sys_open os i rest.head? (redir_mode u) = -1
        · simp [redirect_scan, hu, hfd] at h
        · simp only [redirect_scan, hu, hfd, if_true, if_false, Option.map_eq_some'] at h
          obtain ⟨c, hc, _⟩ := h
          exact ⟨c, hc⟩
      · simp only [redirect_scan, hu, Bool.false_eq_true, if_false, Option.map_eq_some'] at h
        obtain ⟨c, hc, _⟩ := h
        exact ⟨c, hc⟩
    obtain ⟨c, hc⟩ := hrest
    cases k with
    | zero =>
      simp only [List.getElem?_cons_zero, Option.some.injEq] at hk
      subst hk
      have hnext : (u :: rest)[0 + 1]? = rest.head? := next_head u rest
      rw [hnext, Nat.add_zero]
      by_cases hfd : sys_open os i rest.head? (redir_mode u) = -1
      · simp [redirect_scan, hop, hfd] at h
      · simp [redirect_scan, hop, hfd]
    | succ k =>
      have hk2 : rest[k]? = some t := by simpa using hk
      have hidx : i + (k + 1) = i + 1 + k := by omega
      have hnext : (u :: rest)[k + 1 + 1]? = rest[k + 1]? := by simp
      rw [hidx, hnext]
      obtain ⟨h1, h2, h3, h4⟩ := ih (i + 1) c hc k t hk2 hop
      refine ⟨h1, ?_, ?_, ?_⟩
      · by_cases hu : is_redir_op u = true
        · by_cases hfd : sys_open os i rest.head? (redir_mode u) = -1
          · simp [redirect_scan, hu, hfd] at h
          · simp only [redirect_scan, hu, hfd, if_true, if_false]
            exact List.mem_append_right _ h2
        · simpa [redirect_scan, hu] using h2
      · by_cases hu : is_redir_op u = true
        · by_cases hfd : sys_open os i rest.head? (redir_mode u) = -1
          · simp [redirect_scan, hu, hfd] at h
          · simp only [redirect_scan, hu, hfd, if_true, if_false]
            exact List.mem_append_right _ h3
        · simpa [redirect_scan, hu] using h3
      · by_cases hu : is_redir_op u = true
        · by_cases hfd : sys_open os i rest.head? (redir_mode u) = -1
          · simp [redirect_scan, hu, hfd] at h
          · simp only [redirect_scan, hu, hfd, if_true, if_false]
            exact List.mem_append_right _ h4
        · simpa [redirect_scan, hu] using h4

theorem redirect_scan_fails (os : OS) (toks : List String) :
    ∀ (i k : Nat) (t : String), toks[k]? = some t → is_redir_op t = true →
      (∀ (j : Nat) (u : String), j < k → toks[j]? = some u → is_redir_op u = true →
        sys_open os (i + j) toks[j + 1]? (redir_mode u) ≠ -1) →
      sys_open os (i + k) toks[k + 1]? (redir_mode t) = -1 →
      (redirect_scan os i toks).2 = none ∧
      ∃ tr0, (redirect_scan os i toks).1 =
        tr0 ++ [Call.openf toks[k + 1]? (redir_mode t) (-1), Call.perror "open", Call.exit_ 1] ∧
        ∀ c ∈ tr0, c ≠ Call.perror "open" ∧ c ≠ Call.exit_ 1 := by
  induction toks with
  | nil => intro i k t hk; simp at hk
  | cons u rest ih =>
    intro i k t hk hop hreach hfail
    cases k with
    | zero =>
      simp only [List.getElem?_cons_zero, Option.some.injEq] at hk
      subst hk
      have hnext : (u :: rest)[0 + 1]? = rest.head? := next_head u rest
      rw [hnext, Nat.add_zero] at hfail
      rw [hnext]
      refine ⟨by simp [redirect_scan, hop, hfail], [], ?_, by simp⟩
      simp [redirect_scan, hop, hfail]
    | succ k =>
      have hk2 : rest[k]? = some t := by simpa using hk
      have hidx : i + (k + 1) = i + 1 + k := by omega
      have hnext : (u :: rest)[k + 1 + 1]? = rest[k + 1]? := by simp
      rw [hidx, hnext] at hfail
      rw [hnext]
      have hreach2 : ∀ (j : Nat) (w : String), j < k → rest[j]? = some w →
          is_redir_op w = true → sys_open os (i + 1 + j) rest[j + 1]? (redir_mode w) ≠ -1 := by
        intro j w hj hw hwop
        have := hreach (j + 1) w (by omega) (by simpa using hw) hwop
        have hidx2 : i + (j + 1) = i + 1 + j := by omega
        have hnext2 : (u :: rest)[j + 1 + 1]? = rest[j + 1]? := by simp
        rwa [hidx2, hnext2] at this
      obtain ⟨hnone, tr0, htr, hclean⟩ := ih (i + 1) k t hk2 hop hreach2 hfail
      by_cases hu : is_redir_op u = true
      · have h0 := hreach 0 u (by omega) (by simp) hu
        have hnext0 : (u :: rest)[0 + 1]? = rest.head? := next_head u rest
        rw [hnext0, Nat.add_zero] at h0
        refine ⟨by simp [redirect_scan, hu, h0, hnone], ?_⟩
        refine ⟨[Call.openf rest.head? (redir_mode u) (sys_open os i rest.head? (redir_mode u)),
          Call.dup2 (sys_open os i rest.head? (redir_mode u)) (redir_target u),
          Call.close (sys_open os i rest.head? (redir_mode u))] ++ tr0, ?_, ?_⟩
        · simp [redirect_scan, hu, h0, htr]
        · intro c hc
          rcases List.mem_append.mp hc with hc1 | hc1
          · simp only [List.mem_cons, List.mem_singleton, List.not_mem_nil, or_false] at hc1
            rcases hc1 with rfl | rfl | rfl <;> simp
          · exact hclean c hc1
      · refine ⟨by simp [redirect_scan, hu, hnone], tr0, ?_, hclean⟩
        simp [redirect_scan, hu, htr]

theorem is_redir_op_iff (t : String) : is_redir_op t = true ↔ t = ">" ∨ t = "<" := by
  simp [is_redir_op]

theorem handle_redirection_returns (os : OS) (toks : List String) (tail args1 : Argv)
    (hret : (handle_redirection os (toks.map some ++ none :: tail)).2 = some args1) :
    args1 = toks.map strip_op ++ none :: tail ∧
      ∃ cells, (redirect_scan os 0 toks).2 = some cells := by
  rw [handle_redirection_eq_scan] at hret
  simp only [Option.map_eq_some'] at hret
  obtain ⟨cells, hc, rfl⟩ := hret
  exact ⟨by rw [redirect_scan_cells os toks 0 cells hc], cells, hc⟩

theorem child_exec_of_returns (os : OS) (args args1 : Argv)
    (hret : (handle_redirection os args).2 = some args1) :
    child_exec os args = (handle_redirection os args).1 ++
      Call.execvp (cell args1 0) (argv_list args1) ::
        (if os.execvp_fails then [Call.perror "execvp", Call.exit_ 1] else []) := by
  unfold child_exec
  rcases hh : handle_redirection os args with ⟨tr, r⟩
  rw [hh] at hret
  simp only at hret
  subst hret
  rfl

theorem child_exec_of_exits (os : OS) (args : Argv)
    (hret : (handle_redirection os args).2 = none) :
    child_exec os args = (handle_redirection os args).1 := by
  unfold child_exec
  rcases hh : handle_redirection os args with ⟨tr, r⟩
  rw [hh] at hret
  simp only at hret
  subst hret
  rfl

theorem handle_redirection_no_execvp (os : OS) (toks : List String) (tail : Argv)
    (file : Option String) (argv : List String) :
    Call.execvp file argv ∉ (handle_redirection os (toks.map some ++ none :: tail)).1 := by
  rw [handle_redirection_eq_scan]
  exact redirect_scan_no_execvp os toks 0 file argv

theorem execvp_mem_execute_external (os : OS) (args : Argv) (background : Int)
    (file : Option String) (argv : List String)
    (h : Call.execvp file argv ∈ execute_external os args background) :
    Call.execvp file argv ∈ child_exec os args := by
  unfold execute_external at h
  by_cases h0 : os.fork_ret 0 = 0
  · simpa [h0] using h
  · by_cases hpos : 0 < os.fork_ret 0
    · by_cases hb : background = 0
      · simp [h0, hpos, hb] at h
      · simp [h0, hpos, hb] at h
    · simp [h0, hpos] at h

theorem execvp_mem_child_exec (os : OS) (toks : List String) (tail args1 : Argv)
    (hret : (handle_redirection os (toks.map some ++ none :: tail)).2 = some args1)
    (file : Option String) (argv : List String)
    (h : Call.execvp file argv ∈ child_exec os (toks.map some ++ none :: tail)) :
    file = cell args1 0 ∧ argv = argv_list args1 := by
  rw [child_exec_of_returns os _ args1 hret] at h
  rcases List.mem_append.mp h with h1 | h1
  · exact absurd h1 (handle_redirection_no_execvp os toks tail file argv)
  · rcases List.mem_cons.mp h1 with h2 | h2
    · simpa using h2
    · by_cases hf : os.execvp_fails = true
      · simp [hf] at h2
      · simp [hf] at h2

/-! ## Claims on redirection -/

/-- C3: whenever `handle_redirection` returns on an argument vector (every `open`
succeeded), the `NULL`-terminated list the child hands to `execvp` holds neither
`">"` nor `"<"`. The child does reach `execvp` with that list, and this is the
only `execvp` of the child, in `execute_external` as well. -/
theorem exec_argv_without_operators (os : OS) (toks : List String) (tail args1 : Argv)
    (hret : (handle_redirection os (toks.map some ++ none :: tail)).2 = some args1) :
    ">" ∉ argv_list args1 ∧ "<" ∉ argv_list args1 ∧
    Call.execvp (cell args1 0) (argv_list args1) ∈
      child_exec os (toks.map some ++ none :: tail) ∧
    (∀ (background : Int) (file : Option String) (argv : List String),
      Call.execvp file argv ∈ execute_external os (toks.map some ++ none :: tail) background →
        argv = argv_list args1 ∧ ">" ∉ argv ∧ "<" ∉ argv) ∧
    (os.fork_ret 0 = 0 → ∀ background : Int,
      Call.execvp (cell args1 0) (argv_list args1) ∈
        execute_external os (toks.map some ++ none :: tail) background) := by
  obtain ⟨hargs, _⟩ := handle_redirection_returns os toks tail args1 hret
  have hlist : argv_list args1 = toks.takeWhile (fun t => !is_redir_op t) := by
    rw [hargs, argv_list_strip_op]
  have hno : ∀ t ∈ argv_list args1, is_redir_op t = false := by
    intro t ht
    rw [hlist] at ht
    simpa using List.mem_takeWhile_imp ht
  have hgt : ">" ∉ argv_list args1 := fun h => by
    have := hno ">" h
    simp [is_redir_op] at this
  have hlt : "<" ∉ argv_list args1 := fun h => by
    have := hno "<" h
    simp [is_redir_op] at this
  have hmem : Call.execvp (cell args1 0) (argv_list args1) ∈
      child_exec os (toks.map some ++ none :: tail) := by
    rw [child_exec_of_returns os _ args1 hret]
    simp
  refine ⟨hgt, hlt, hmem, ?_, ?_⟩
  · intro background file argv h
    have h2 := execvp_mem_execute_external os _ background file argv h
    obtain ⟨_, hargv⟩ := execvp_mem_child_exec os toks tail args1 hret file argv h2
    subst hargv
    exact ⟨rfl, hgt, hlt⟩
  · intro h0 background
    unfold execute_external
    simp only [h0, if_true]
    exact List.mem_cons_of_mem _ hmem

/-- C3 at `echo > out hello` in a child whose `open` succeeds. -/
theorem exec_argv_without_operators_witness :
    (handle_redirection os_child (["echo", ">", "out", "hello"].map some ++ none :: [])).2 =
      some [some "echo", none, some "out", some "hello", none] ∧
    ">" ∉ argv_list [some "echo", none, some "out", some "hello", none] ∧
    Call.execvp (some "echo") ["echo"] ∈
      execute_external os_child (["echo", ">", "out", "hello"].map some ++ none :: []) 0 :=
  ⟨by decide,
    (exec_argv_without_operators os_child ["echo", ">", "out", "hello"] []
      [some "echo", none, some "out", some "hello", none] (by decide)).1,
    (exec_argv_without_operators os_child ["echo", ">", "out", "hello"] []
      [some "echo", none, some "out", some "hello", none] (by decide)).2.2.2.2 (by decide) 0⟩

/-- C10: on a vector that holds a redirection operator and on which
`handle_redirection` returns, the list passed to `execvp` is exactly the tokens
in front of the first `">"` or `"<"`, so it is strictly shorter than the vector
and every token behind that operator is dropped. The scan still visits every
later operator: each one has its path opened (successfully), bound to its stream
with `dup2`, and closed. -/
theorem exec_argv_stops_at_first_operator (os : OS) (toks : List String) (tail args1 : Argv)
    (hop : ">" ∈ toks ∨ "<" ∈ toks)
    (hret : (handle_redirection os (toks.map some ++ none :: tail)).2 = some args1) :
    argv_list args1 = toks.takeWhile (fun t => !is_redir_op t) ∧
    (argv_list args1).length < toks.length ∧
    args1 = toks.map strip_op ++ none :: tail ∧
    child_exec os (toks.map some ++ none :: tail) =
      (handle_redirection os (toks.map some ++ none :: tail)).1 ++
        Call.execvp (toks.takeWhile (fun t => !is_redir_op t)).head?
          (toks.takeWhile (fun t => !is_redir_op t)) ::
          (if os.execvp_fails then [Call.perror "execvp", Call.exit_ 1] else []) ∧
    (∀ (k : Nat) (t : String), toks[k]? = some t → t = ">" ∨ t = "<" →
      sys_open os k toks[k + 1]? (redir_mode t) ≠ -1 ∧
      Call.openf toks[k + 1]? (redir_mode t) (sys_open os k toks[k + 1]? (redir_mode t)) ∈
        (handle_redirection os (toks.map some ++ none :: tail)).1 ∧
      Call.dup2 (sys_open os k toks[k + 1]? (redir_mode t)) (redir_target t) ∈
        (handle_redirection os (toks.map some ++ none :: tail)).1 ∧
      Call.close (sys_open os k toks[k + 1]? (redir_mode t)) ∈
        (handle_redirection os (toks.map some ++ none :: tail)).1) := by
  obtain ⟨hargs, cells, hcells⟩ := handle_redirection_returns os toks tail args1 hret
  have hlist : argv_list args1 = toks.takeWhile (fun t => !is_redir_op t) := by
    rw [hargs, argv_list_strip_op]
  have hfile : cell args1 0 = (toks.takeWhile (fun t => !is_redir_op t)).head? := by
    rw [hargs, cell_zero_strip_op]
  refine ⟨hlist, ?_, hargs, ?_, ?_⟩
  · rw [hlist]
    have hle : (toks.takeWhile (fun t => !is_redir_op t)).length ≤ toks.length :=
      (List.takeWhile_sublist _).length_le
    rcases Nat.lt_or_ge (toks.takeWhile (fun t => !is_redir_op t)).length toks.length
      with hlt | hge
    · exact hlt
    · exfalso
      have heq : toks.takeWhile (fun t => !is_redir_op t) = toks :=
        (List.takeWhile_sublist _).eq_of_length_le hge
      have hall : ∀ t ∈ toks, is_redir_op t = false := by
        intro t ht
        rw [← heq] at ht
        simpa using List.mem_takeWhile_imp ht
      rcases hop with h | h
      · have := hall ">" h
        simp [is_redir_op] at this
      · have := hall "<" h
        simp [is_redir_op] at this
  · rw [child_exec_of_returns os _ args1 hret, hlist, hfile]
  · intro k t hk ht
    have h := redirect_scan_applies os toks 0 cells hcells k t hk ((is_redir_op_iff t).mpr ht)
    rw [handle_redirection_eq_scan]
    simpa using h

/-- C10 at `echo > out hello < in`: only `echo` is executed, `hello` is dropped,
and the later `"<"` is still applied. -/
theorem exec_argv_stops_at_first_operator_witness :
    (">" ∈ ["echo", ">", "out", "hello", "<", "in"] ∨
      "<" ∈ ["echo", ">", "out", "hello", "<", "in"]) ∧
    (handle_redirection os_child
      (["echo", ">", "out", "hello", "<", "in"].map some ++ none :: [])).2 =
      some [some "echo", none, some "out", some "hello", none, some "in", none] ∧
    child_exec os_child (["echo", ">", "out", "hello", "<", "in"].map some ++ none :: []) =
      (handle_redirection os_child
        (["echo", ">", "out", "hello", "<", "in"].map some ++ none :: [])).1 ++
        Call.execvp
          (["echo", ">", "out", "hello", "<", "in"].takeWhile (fun t => !is_redir_op t)).head?
          (["echo", ">", "out", "hello", "<", "in"].takeWhile (fun t => !is_redir_op t)) ::
          (if os_child.execvp_fails then [Call.perror "execvp", Call.exit_ 1] else []) ∧
    child_exec os_child (["echo", ">", "out", "hello", "<", "in"].map some ++ none :: []) =
      [Call.openf (some "out") OMode.wronly_creat_trunc 5, Call.dup2 5 1, Call.close 5,
        Call.openf (some "in") OMode.rdonly 5, Call.dup2 5 0, Call.close 5,
        Call.execvp (some "echo") ["echo"]] :=
  ⟨by decide, by decide,
    (exec_argv_stops_at_first_operator os_child ["echo", ">", "out", "hello", "<", "in"] []
      [some "echo", none, some "out", some "hello", none, some "in", none]
      (by decide) (by decide)).2.2.2.1,
    by decide⟩

/-- C4: let the scan of `handle_redirection` reach an operator at index `k` (every
operator in front of it had its path opened), and let that operator be the last
token, or let the `open` of the path behind it fail. Then `handle_redirection`
does not return: its trace ends with the failed `open`, `perror("open")` and
`exit(1)`, nothing was reported or exited before, and the child never calls
`execvp`. -/
theorem redirection_failure_exits (os : OS) (toks : List String) (tail : Argv)
    (k : Nat) (t : String) (hk : toks[k]? = some t) (hop : t = ">" ∨ t = "<")
    (hreach : ∀ (j : Nat) (u p : String), j < k → toks[j]? = some u → u = ">" ∨ u = "<" →
      toks[j + 1]? = some p → os.open_ret j p (redir_mode u) ≠ -1)
    (hfail : toks[k + 1]? = none ∨
      ∃ p, toks[k + 1]? = some p ∧ os.open_ret k p (redir_mode t) = -1) :
    (handle_redirection os (toks.map some ++ none :: tail)).2 = none ∧
    (∃ tr0, (handle_redirection os (toks.map some ++ none :: tail)).1 =
        tr0 ++ [Call.openf toks[k + 1]? (redir_mode t) (-1), Call.perror "open", Call.exit_ 1] ∧
      ∀ c ∈ tr0, c ≠ Call.perror "open" ∧ c ≠ Call.exit_ 1) ∧
    child_exec os (toks.map some ++ none :: tail) =
      (handle_redirection os (toks.map some ++ none :: tail)).1 ∧
    (∀ (file : Option String) (argv : List String),
      Call.execvp file argv ∉ child_exec os (toks.map some ++ none :: tail)) ∧
    (∀ (background : Int) (file : Option String) (argv : List String),
      Call.execvp file argv ∉
        execute_external os (toks.map some ++ none :: tail) background) := by
  have hreach2 : ∀ (j : Nat) (u : String), j < k → toks[j]? = some u → is_redir_op u = true →
      sys_open os (0 + j) toks[j + 1]? (redir_mode u) ≠ -1 := by
    intro j u hj hu huop
    have hklt : k < toks.length := by
      rcases Nat.lt_or_ge k toks.length with h | h
      · exact h
      · rw [List.getElem?_eq_none h] at hk; simp at hk
    have hj1 : j + 1 < toks.length := by omega
    have hp : toks[j + 1]? = some toks[j + 1] := List.getElem?_eq_getElem hj1
    have := hreach j u toks[j + 1] hj hu ((is_redir_op_iff u).mp huop) hp
    rw [hp]
    simpa [sys_open] using this
  have hfail2 : sys_open os (0 + k) toks[k + 1]? (redir_mode t) = -1 := by
    rcases hfail with h | ⟨p, hp, hret⟩
    · rw [h]; rfl
    · rw [hp]; simpa [sys_open] using hret
  obtain ⟨hnone, tr0, htr, hclean⟩ :=
    redirect_scan_fails os toks 0 k t hk ((is_redir_op_iff t).mpr hop) hreach2 hfail2
  have hres : (handle_redirection os (toks.map some ++ none :: tail)).2 = none := by
    rw [handle_redirection_eq_scan]
    simp [hnone]
  have hchild := child_exec_of_exits os _ hres
  have hnoexec : ∀ (file : Option String) (argv : List String),
      Call.execvp file argv ∉ child_exec os (toks.map some ++ none :: tail) := by
    intro file argv
    rw [hchild]
    exact handle_redirection_no_execvp os toks tail file argv
  refine ⟨hres, ⟨tr0, ?_, hclean⟩, hchild, hnoexec, ?_⟩
  · rw [handle_redirection_eq_scan]
    exact htr
  · intro background file argv h
    exact hnoexec file argv (execvp_mem_execute_external os _ background file argv h)

/-- C4 at `cat < in >`: the `"<"` is applied, the trailing `">"` has no path. -/
theorem redirection_failure_exits_witness :
    (["cat", "<", "in", ">"] : List String)[3]? = some ">" ∧
    (["cat", "<", "in", ">"] : List String)[3 + 1]? = none ∧
    (handle_redirection os_child (["cat", "<", "in", ">"].map some ++ none :: [])).2 = none ∧
    child_exec os_child (["cat", "<", "in", ">"].map some ++ none :: []) =
      [Call.openf (some "in") OMode.rdonly 5, Call.dup2 5 0, Call.close 5,
        Call.openf none OMode.wronly_creat_trunc (-1), Call.perror "open", Call.exit_ 1] :=
  ⟨by decide, by decide,
    (redirection_failure_exits os_child ["cat", "<", "in", ">"] [] 3 ">" (by decide)
      (Or.inl rfl) (fun _ _ _ _ _ _ _ => (by decide : (5 : Int) ≠ -1)) (Or.inl (by decide))).1,
    by decide⟩

/-! ## Claims on the pipeline executor -/

/-- C5: when the vector holds a `"|"`, `pipe` succeeds and both `fork`s return a
child to the parent, the parent of `handle_piping` performs exactly: `pipe`,
`fork` (child A), `fork` (child B), `close` of the read end, `close` of the write
end, `waitpid` for A, `waitpid` for B. -/
theorem handle_piping_parent_trace (os : OS) (toks : List String) (tail : Argv)
    (hpipe : "|" ∈ toks) (hp : os.pipe_ret = 0)
    (h1 : 0 < os.fork_ret 0) (h2 : 0 < os.fork_ret 1) :
    handle_piping os (toks.map some ++ none :: tail) =
      [Call.pipe 0, Call.fork (os.fork_ret 0), Call.fork (os.fork_ret 1),
        Call.close os.pipe_rd, Call.close os.pipe_wr,
        Call.waitpid (os.fork_ret 0), Call.waitpid (os.fork_ret 1)] := by
  obtain ⟨heq, hnot⟩ := first_pipe_split toks hpipe
  have hsplit := handle_piping_split_at _ (toks.dropWhile (fun t => !decide (t = "|"))).tail
    tail hnot
  rw [← heq] at hsplit
  have e1 : ¬ os.fork_ret 0 = 0 := by omega
  have e2 : ¬ os.fork_ret 1 = 0 := by omega
  simp [handle_piping, hsplit, hp, e1, e2]

/-- C5 at `ls -l | wc` in the parent of children 101 and 102. -/
theorem handle_piping_parent_trace_witness :
    "|" ∈ ["ls", "-l", "|", "wc"] ∧ os_parent.pipe_ret = 0 ∧
    0 < os_parent.fork_ret 0 ∧ 0 < os_parent.fork_ret 1 ∧
    handle_piping os_parent (["ls", "-l", "|", "wc"].map some ++ none :: []) =
      [Call.pipe 0, Call.fork 101, Call.fork 102, Call.close 3, Call.close 4,
        Call.waitpid 101, Call.waitpid 102] :=
  ⟨by decide, by decide, by decide, by decide,
    handle_piping_parent_trace os_parent ["ls", "-l", "|", "wc"] []
      (by decide) (by decide) (by decide) (by decide)⟩

/-- C7 (the code departs from the claim): when the first `fork` of a pipeline
fails with -1, `handle_piping` reports nothing, forks the second child all the
same, and waits twice, first on pid -1 (any child), then on the second child.
When the second `fork` fails, it reports nothing either and waits on the first
child and on pid -1. `execute_external` on the same failure reports
`perror("fork")` and stops. -/
theorem handle_piping_ignores_fork_failure :
    handle_piping os_fork1_fails (mk_argv ["ls", "|", "wc"]) =
      [Call.pipe 0, Call.fork (-1), Call.fork 102, Call.close 3, Call.close 4,
        Call.waitpid (-1), Call.waitpid 102] ∧
    handle_piping os_fork2_fails (mk_argv ["ls", "|", "wc"]) =
      [Call.pipe 0, Call.fork 101, Call.fork (-1), Call.close 3, Call.close 4,
        Call.waitpid 101, Call.waitpid (-1)] ∧
    execute_external os_fork1_fails (mk_argv ["ls"]) 0 =
      [Call.fork (-1), Call.perror "fork"] := by
  decide

/-! ## `strtok` against the maximal runs -/

theorem is_delim_eq_is_blank (c : Char) (h : c ≠ '\n') : is_delim c = is_blank c := by
  simp [is_delim, is_blank, h]

theorem runs_nil : runs [] = [] := by
  simp [runs, List.splitOnP_nil]

theorem runs_cons_blank (c : Char) (cs : List Char) (h : is_blank c = true) :
    runs (c :: cs) = runs cs := by
  simp [runs, List.splitOnP_cons, h]

theorem scan_token_split (l : List Char) :
    '\x00' ∉ l → '\n' ∉ l →
      ∃ X, l.splitOnP is_blank = (scan_token l).1 :: X ∧
        X.filter (fun r => !r.isEmpty) = runs (scan_token l).2 ∧
        '\x00' ∉ (scan_token l).2 ∧ '\n' ∉ (scan_token l).2 := by
  induction l with
  | nil =>
    intro _ _
    exact ⟨[], by simp [List.splitOnP_nil, scan_token], by simp [scan_token, runs_nil],
      by simp [scan_token], by simp [scan_token]⟩
  | cons c cs ih =>
    intro hnul hnl
    have hc0 : c ≠ '\x00' := fun h => hnul (h ▸ List.mem_cons_self _ _)
    have hcn : c ≠ '\n' := fun h => hnl (h ▸ List.mem_cons_self _ _)
    have hnul2 : '\x00' ∉ cs := fun h => hnul (List.mem_cons_of_mem _ h)
    have hnl2 : '\n' ∉ cs := fun h => hnl (List.mem_cons_of_mem _ h)
    by_cases hb : is_blank c = true
    · have hd : is_delim c = true := by rw [is_delim_eq_is_blank c hcn]; exact hb
      refine ⟨cs.splitOnP is_blank, ?_, ?_, ?_, ?_⟩
      · simp [List.splitOnP_cons, hb, scan_token, hc0, hd]
      · simp [scan_token, hc0, hd, runs]
      · simpa [scan_token, hc0, hd] using hnul2
      · simpa [scan_token, hc0, hd] using hnl2
    · have hd : is_delim c = false := by
        rw [is_delim_eq_is_blank c hcn]; simpa using hb
      obtain ⟨X, hX, hfilter, h0, hn⟩ := ih hnul2 hnl2
      refine ⟨X, ?_, ?_, ?_, ?_⟩
      · simp [List.splitOnP_cons, hb, scan_token, hc0, hd, hX, List.modifyHead]
      · simpa [scan_token, hc0, hd] using hfilter
      · simpa [scan_token, hc0, hd] using h0
      · simpa [scan_token, hc0, hd] using hn

theorem skip_delims_spec (l : List Char) :
    '\n' ∉ l → runs (skip_delims l) = runs l ∧ (∀ c ∈ skip_delims l, c ∈ l) ∧
      ∀ c cs, skip_delims l = c :: cs → is_blank c = false := by
  induction l with
  | nil => intro _; simp [skip_delims]
  | cons c cs ih =>
    intro hnl
    have hcn : c ≠ '\n' := fun h => hnl (h ▸ List.mem_cons_self _ _)
    have hnl2 : '\n' ∉ cs := fun h => hnl (List.mem_cons_of_mem _ h)
    by_cases hb : is_blank c = true
    · have hd : is_delim c = true := by rw [is_delim_eq_is_blank c hcn]; exact hb
      obtain ⟨h1, h2, h3⟩ := ih hnl2
      refine ⟨?_, ?_, ?_⟩
      · simp only [skip_delims, hd, if_true, h1, runs_cons_blank c cs hb]
      · intro x hx
        simp only [skip_delims, hd, if_true] at hx
        exact List.mem_cons_of_mem _ (h2 x hx)
      · intro x xs hx
        simp only [skip_delims, hd, if_true] at hx
        exact h3 x xs hx
    · have hd : is_delim c = false := by
        rw [is_delim_eq_is_blank c hcn]; simpa using hb
      refine ⟨?_, ?_, ?_⟩
      · simp [skip_delims, hd]
      · intro x hx
        simpa [skip_delims, hd] using hx
      · intro x xs hx
        simp only [skip_delims, hd, Bool.false_eq_true, if_false, List.cons.injEq] at hx
        rw [← hx.1]
        simpa using hb

theorem strtok_step (l : List Char) (hnul : '\x00' ∉ l) (hnl : '\n' ∉ l) :
    (strtok l = none ∧ runs l = []) ∨
      ∃ tok r, strtok l = some (tok, r) ∧ tok ≠ [] ∧ runs l = tok :: runs r ∧
        '\x00' ∉ r ∧ '\n' ∉ r := by
  obtain ⟨hruns, hsub, hhead⟩ := skip_delims_spec l hnl
  rcases hs : skip_delims l with _ | ⟨c, cs⟩
  · left
    refine ⟨by simp [strtok, hs], ?_⟩
    rw [← hruns, hs, runs_nil]
  · right
    have hcb : is_blank c = false := hhead c cs hs
    have hnul1 : '\x00' ∉ c :: cs := fun h => hnul (hsub _ (hs ▸ h))
    have hnl1 : '\n' ∉ c :: cs := fun h => hnl (hsub _ (hs ▸ h))
    have hc0 : c ≠ '\x00' := fun h => hnul1 (h ▸ List.mem_cons_self _ _)
    have hcn : c ≠ '\n' := fun h => hnl1 (h ▸ List.mem_cons_self _ _)
    have hd : is_delim c = false := by rw [is_delim_eq_is_blank c hcn]; exact hcb
    obtain ⟨X, hX, hfilter, h0, hn⟩ := scan_token_split (c :: cs) hnul1 hnl1
    have htok : (scan_token (c :: cs)).1 ≠ [] := by
      simp [scan_token, hc0, hd]
    refine ⟨(scan_token (c :: cs)).1, (scan_token (c :: cs)).2, ?_, htok, ?_, h0, hn⟩
    · simp [strtok, hs, hc0]
    · rw [← hruns, hs, runs, hX, List.filter_cons]
      have : (!(scan_token (c :: cs)).1.isEmpty) = true := by
        simpa [List.isEmpty_iff] using htok
      rw [this, if_pos rfl, hfilter]

theorem parse_loop_eq_runs :
    ∀ (n : Nat) (l : List Char), '\x00' ∉ l → '\n' ∉ l →
      parse_loop n (strtok l) = ((runs l).take n).map String.mk := by
  intro n
  induction n with
  | zero => intro l _ _; simp [parse_loop]
  | succ n ih =>
    intro l hnul hnl
    rcases strtok_step l hnul hnl with ⟨hnone, hruns⟩ | ⟨tok, r, hsome, _, hruns, h0, hn⟩
    · rw [hnone, hruns]; simp [parse_loop]
    · rw [hsome, hruns]
      simp [parse_loop, ih r h0 hn]

theorem splitOnP_piece_no_sep (p : Char → Bool) (l : List Char) :
    ∀ r ∈ l.splitOnP p, ∀ c ∈ r, p c = false := by
  induction l with
  | nil => intro r hr c hc; simp [List.splitOnP_nil] at hr; subst hr; simp at hc
  | cons x xs ih =>
    intro r hr c hc
    by_cases hx : p x = true
    · simp only [List.splitOnP_cons, hx, if_true, List.mem_cons] at hr
      rcases hr with rfl | hr
      · simp at hc
      · exact ih r hr c hc
    · simp only [List.splitOnP_cons, hx, Bool.false_eq_true, if_false] at hr
      rcases hsp : xs.splitOnP p with _ | ⟨h, t⟩
      · exact absurd hsp (List.splitOnP_ne_nil p xs)
      · rw [hsp] at hr ih
        simp only [List.modifyHead, List.mem_cons] at hr
        rcases hr with rfl | hr
        · rcases List.mem_cons.mp hc with rfl | hc2
          · simpa using hx
          · exact ih h (List.mem_cons_self _ _) c hc2
        · exact ih r (List.mem_cons_of_mem _ hr) c hc

theorem splitOnP_flatten (p : Char → Bool) (l : List Char) :
    (l.splitOnP p).flatten = l.filter (fun c => !p c) := by
  induction l with
  | nil => simp [List.splitOnP_nil]
  | cons x xs ih =>
    by_cases hx : p x = true
    · simp [List.splitOnP_cons, hx, ih]
    · rcases hsp : xs.splitOnP p with _ | ⟨h, t⟩
      · exact absurd hsp (List.splitOnP_ne_nil p xs)
      · rw [hsp] at ih
        simp only [List.splitOnP_cons, hx, Bool.false_eq_true, if_false, hsp, List.modifyHead]
        simp only [List.flatten_cons] at ih ⊢
        simp [hx, ← ih]

theorem filter_nonempty_flatten (L : List (List Char)) :
    (L.filter (fun r => !r.isEmpty)).flatten = L.flatten := by
  induction L with
  | nil => rfl
  | cons r rs ih =>
    cases r with
    | nil => simpa using ih
    | cons c cs => simp [ih]

/-! ## Claims on the tokenizer -/

theorem parse_input_eq_take (line : String) (hnul : '\x00' ∉ line.toList)
    (hnl : '\n' ∉ line.toList) :
    parse_input true line = ParseResult.returned (mk_argv ((maximal_runs line).take 63)) := by
  have h := parse_loop_eq_runs 63 line.toList hnul hnl
  have h63 : MAX_ARGS - 1 = 63 := rfl
  unfold parse_input
  rw [h63, h, maximal_runs, List.map_take]
  rfl

theorem runs_nonempty (l : List Char) : ∀ r ∈ runs l, r ≠ [] := by
  intro r hr
  have := (List.mem_filter.mp hr).2
  simpa [List.isEmpty_iff] using this

theorem runs_no_blank (l : List Char) : ∀ r ∈ runs l, ∀ c ∈ r, is_blank c = false := by
  intro r hr
  exact splitOnP_piece_no_sep is_blank l r (List.mem_filter.mp hr).1

theorem runs_flatten (l : List Char) : (runs l).flatten = l.filter (fun c => !is_blank c) := by
  rw [runs, filter_nonempty_flatten, splitOnP_flatten]

theorem runs_of_all_blank (l : List Char) (h : ∀ c ∈ l, c = ' ' ∨ c = '\t') : runs l = [] := by
  have hfl : (runs l).flatten = [] := by
    rw [runs_flatten, List.filter_eq_nil_iff]
    intro c hc
    rcases h c hc with rfl | rfl <;> decide
  rcases hr : runs l with _ | ⟨r, rs⟩
  · rfl
  · exfalso
    have hne : r ≠ [] := runs_nonempty l r (hr ▸ List.mem_cons_self _ _)
    rw [hr, List.flatten_cons] at hfl
    exact hne (List.append_eq_nil.mp hfl).1

/-- C1: for every line without NUL and newline that has at most 63 tokens,
`parse_input` returns the vector of the maximal runs of characters other than
space and tab, in line order. Every token is non-empty and free of space and
tab, the tokens concatenated are the line with its blanks deleted, and a line
of blanks only (or the empty line) gives the empty vector. `"ls -la /tmp"`
gives `ls`, `-la`, `/tmp`, and `"   "` gives no token. -/
theorem parse_input_maximal_runs (line : String) (hnul : '\x00' ∉ line.toList)
    (hnl : '\n' ∉ line.toList) (hcount : (maximal_runs line).length ≤ 63) :
    parse_input true line = ParseResult.returned (mk_argv (maximal_runs line)) ∧
    (∀ t ∈ maximal_runs line, t ≠ "" ∧ ' ' ∉ t.toList ∧ '\t' ∉ t.toList) ∧
    ((maximal_runs line).map String.toList).flatten =
      line.toList.filter (fun c => !is_blank c) ∧
    ((∀ c ∈ line.toList, c = ' ' ∨ c = '\t') →
      parse_input true line = ParseResult.returned (mk_argv [])) ∧
    parse_input true "ls -la /tmp" = ParseResult.returned (mk_argv ["ls", "-la", "/tmp"]) ∧
    parse_input true "   " = ParseResult.returned (mk_argv []) ∧
    parse_input true "" = ParseResult.returned (mk_argv []) := by
  have hret := parse_input_eq_take line hnul hnl
  rw [List.take_of_length_le hcount] at hret
  refine ⟨hret, ?_, ?_, ?_, by decide, by decide, by decide⟩
  · intro t ht
    obtain ⟨r, hr, rfl⟩ := List.mem_map.mp ht
    have hne := runs_nonempty _ r hr
    have hnb := runs_no_blank _ r hr
    refine ⟨?_, ?_, ?_⟩
    · intro h
      apply hne
      have := congrArg String.toList h
      simpa using this
    · intro h
      have := hnb ' ' h
      simp [is_blank] at this
    · intro h
      have := hnb '\t' h
      simp [is_blank] at this
  · have : (maximal_runs line).map String.toList = runs line.toList := by
      simp [maximal_runs, Function.comp_def]
    rw [this, runs_flatten]
  · intro hall
    rw [hret, maximal_runs, runs_of_all_blank _ hall]
    rfl

/-- C1 at `"ls -la /tmp"`. -/
theorem parse_input_maximal_runs_witness :
    '\x00' ∉ "ls -la /tmp".toList ∧ '\n' ∉ "ls -la /tmp".toList ∧
    (maximal_runs "ls -la /tmp").length ≤ 63 ∧
    maximal_runs "ls -la /tmp" = ["ls", "-la", "/tmp"] ∧
    parse_input true "ls -la /tmp" =
      ParseResult.returned (mk_argv (maximal_runs "ls -la /tmp")) :=
  ⟨by decide, by decide, by decide, by decide,
    (parse_input_maximal_runs "ls -la /tmp" (by decide) (by decide) (by decide)).1⟩

/-- C6 as the claim states it fails on a line of 64 tokens: `parse_input` returns
an argument vector, the first 63 tokens, and `main` executes it (it forks and
waits) without reporting anything. -/
theorem parse_input_line64_returns :
    (maximal_runs line64).length = 64 ∧
    parse_input true line64 = ParseResult.returned (mk_argv
      ["1", "2", "3", "4", "5", "6", "7", "8", "9", "10", "11", "12", "13", "14", "15", "16",
        "17", "18", "19", "20", "21", "22", "23", "24", "25", "26", "27", "28", "29", "30",
        "31", "32", "33", "34", "35", "36", "37", "38", "39", "40", "41", "42", "43", "44",
        "45", "46", "47", "48", "49", "50", "51", "52", "53", "54", "55", "56", "57", "58",
        "59", "60", "61", "62", "63"]) ∧
    main_iteration os_parent line64 = [Call.fork 101, Call.waitpid 101] := by
  decide

/-- C6, amended: for every line without NUL and newline that has more than 63
tokens, `parse_input` signals no error. It returns the vector of the first 63
tokens, in line order, and `main` passes that vector to `execute_command`. -/
theorem parse_input_truncates (line : String) (hnul : '\x00' ∉ line.toList)
    (hnl : '\n' ∉ line.toList) (hcount : 63 < (maximal_runs line).length) :
    parse_input true line = ParseResult.returned (mk_argv ((maximal_runs line).take 63)) ∧
    ((maximal_runs line).take 63).length = 63 ∧
    (∀ os : OS, os.malloc_ok = true →
      main_iteration os line = execute_command os (mk_argv ((maximal_runs line).take 63))) := by
  have hret := parse_input_eq_take line hnul hnl
  refine ⟨hret, by rw [List.length_take]; omega, ?_⟩
  intro os hos
  unfold main_iteration
  rw [hos, hret]
  rcases hm : maximal_runs line with _ | ⟨t, ts⟩
  · rw [hm] at hcount; simp at hcount
  · simp [mk_argv, cell]

/-- C6, amended, at the line of 64 tokens. -/
theorem parse_input_truncates_witness :
    '\x00' ∉ line64.toList ∧ '\n' ∉ line64.toList ∧ 63 < (maximal_runs line64).length ∧
    parse_input true line64 =
      ParseResult.returned (mk_argv ((maximal_runs line64).take 63)) :=
  ⟨by decide, by decide, by decide,
    (parse_input_truncates line64 (by decide) (by decide) (by decide)).1⟩

end MyShell
